import Mathlib

/-!
# superfastmatch-go: posting client fan-out, index paging and queue item responses

A shallow embedding of `src/posting/client.go` and of `queueItemHandler` in
`src/api/server.go`, followed by theorems about the embedded functions.

Conventions of the embedding.

* A Go `error` is an `Option GoError`; `none` is the nil error.
* A method body either returns, blocks for ever on a channel receive, or
  panics (nil pointer / index out of range): the type `Run`.
* `net/rpc` is the environment.  An asynchronous `Go` call completes exactly
  once by putting its `*rpc.Call` on the `done` channel; the receiver only ever
  observes the FIFO content of that channel, so the environment of a fan-out
  method is the list `done` of completed calls in arrival order.  A synchronous
  `Call` is a function from the arguments to the outcome, `none` for a call that
  never returns.
* The schema decoder behind `decoder.Decode` is an external package: `GetRows`
  takes it as a parameter.
-/

set_option linter.unusedVariables false
set_option linter.dupNamespace false

namespace Posting

/-- A non-nil Go error value. -/
abbrev GoError := String

/-- How the execution of a method body ends. -/
inductive Run (α : Type) where
  | returned (a : α)
  | blocked
  | panicked

/-- Post-processing of a returned value. -/
def Run.map {α β : Type} (f : α → β) : Run α → Run β
  | .returned a => .returned (f a)
  | .blocked => .blocked
  | .panicked => .panicked

/-- The entry `registry.PostingConfig` of one shard (only the field the client reads). -/
structure PostingConfig where
  Address : String

/-- The part of `registry.Registry` the posting client reads. -/
structure Registry where
  PostingConfigs : List PostingConfig

/-- A live `*rpc.Client`, identified by its connection handle. -/
structure RpcClient where
  conn : Nat
deriving DecidableEq

/-- The struct `Client`: `clients []*rpc.Client` (a nil pointer is `none`) and `registry`. -/
structure Client where
  clients : List (Option RpcClient)
  registry : Registry

/-- The struct `Doctype`. -/
structure Doctype where
  Doctype : Nat
  Docids : List Nat
  Deltas : List Nat

/-- The struct `Row`. -/
structure Row where
  Hash : Nat
  Bytes : Int
  Doctypes : List Doctype

/-- The struct `ListResult`. -/
structure ListResult where
  Success : Bool
  TotalRows : Nat
  Rows : List Row

/-- The struct `Query`: `Start uint64`, `Limit int`, `Result ListResult`. -/
structure Query where
  Start : Nat
  Limit : Int
  Result : ListResult

/-- The completed `*rpc.Call` as the receiver sees it: the index of the client the call
was issued on, its `Error` field, and the response body that the rpc layer decodes
into the reply pointer when `Error` is nil. -/
structure Call (R : Type) where
  Shard : Nat
  Error : Option GoError
  Body : R

/-! ## NewClient -/

/-- The loop `for i, config := range p.registry.PostingConfigs` of `NewClient`.
`dial i a` is the outcome of the call `rpc.Dial("tcp", a)` made in iteration `i`.
The second component lists the addresses dialled, in order. -/
def dialLoop (dial : Nat → String → Except GoError RpcClient) :
    Nat → List PostingConfig → List (Option RpcClient) → List String →
      Except GoError (List (Option RpcClient)) × List String
  | _, [], clients, dialled => (.ok clients, dialled)
  | i, config :: rest, clients, dialled =>
    match dial i config.Address with
    | .error err => (.error err, dialled ++ [config.Address])
    | .ok c => dialLoop dial (i + 1) rest (clients.set i (some c)) (dialled ++ [config.Address])

/-- The function `NewClient`: `make([]*rpc.Client, len(registry.PostingConfigs))`, then one dial
per config, returning `nil, err` at the first failing dial. -/
def NewClient (dial : Nat → String → Except GoError RpcClient) (registry : Registry) :
    Except GoError Client × List String :=
  match dialLoop dial 0 registry.PostingConfigs
      (List.replicate registry.PostingConfigs.length none) [] with
  | (.ok cs, dialled) => (.ok { clients := cs, registry := registry }, dialled)
  | (.error err, dialled) => (.error err, dialled)

/-! ## The fan-out methods -/

/-- The expression `p.clients[i].Go(...)` executes without panic: the index is in range and the
pointer is not nil. -/
def canGo (clients : List (Option RpcClient)) (i : Nat) : Bool :=
  match clients.get? i with
  | some (some _) => true
  | _ => false

/-- The receive loop shared by the three fan-out methods, run for `n` iterations:
`replyCall := <-done; if replyCall.Error != nil { return replyCall.Error }`.
Returns the error handed to `return` (`none` when the loop runs to its end) and the number
of calls taken from the channel; the third argument counts the receives made so far. -/
def receive {R : Type} : Nat → List (Call R) → Nat → Run (Option GoError × Nat)
  | 0, _, k => .returned (none, k)
  | _ + 1, [], _ => .blocked
  | n + 1, replyCall :: rest, k =>
    match replyCall.Error with
    | some err => .returned (some err, k + 1)
    | none => receive n rest (k + 1)

/-- The method `Initialise`, instrumented with the number of completions received. -/
def InitialiseRun {R : Type} (p : Client) (done : List (Call R)) : Run (Option GoError × Nat) :=
  if (List.range p.registry.PostingConfigs.length).all (canGo p.clients) then
    receive p.registry.PostingConfigs.length done 0
  else .panicked

/-- The method `Initialise`: the error it returns. -/
def Initialise {R : Type} (p : Client) (done : List (Call R)) : Run (Option GoError) :=
  (InitialiseRun p done).map Prod.fst

/-- The type `document.SearchGroup`: a slice of per-shard search maps. -/
abbrev SearchGroup (R : Type) := List R

/-- The rpc layer decodes the body of a call that completed without error into its reply
pointer `&result[i]`. -/
def writeReply {R : Type} (result : SearchGroup R) (c : Call R) : SearchGroup R :=
  match c.Error with
  | none => result.set c.Shard c.Body
  | some _ => result

/-- The method `Search`.  `result` starts as `make(document.SearchGroup, len(p.clients))`
(all zero values, `default`); on the nil-error return it holds the replies of the calls
that were received.  Returns the pair `(*SearchGroup, error)`. -/
def Search {R D : Type} [Inhabited R] (p : Client) (d : D) (done : List (Call R)) :
    Run (Option (SearchGroup R) × Option GoError) :=
  if (List.range p.clients.length).all (canGo p.clients) then
    match receive p.clients.length done 0 with
    | .returned (some err, _) => .returned (none, some err)
    | .returned (none, k) =>
      .returned (some ((done.take k).foldl writeReply (List.replicate p.clients.length default)),
        none)
    | .blocked => .blocked
    | .panicked => .panicked
  else .panicked

/-- The method `CallMultiple`: every `Go` gets a nil reply pointer, only `Error` is read. -/
def CallMultiple {R A : Type} (p : Client) (service : String) (args : A) (done : List (Call R)) :
    Run (Option GoError) :=
  if (List.range p.clients.length).all (canGo p.clients) then
    (receive p.clients.length done 0).map Prod.fst
  else .panicked

/-! ## GetRows -/

/-- The type `url.Values` (`map[string][]string`) as the list of its entries; the keys are
distinct and `List.lookup` is the map access. -/
abbrev Values := List (String × List String)

/-- One synchronous call `p.clients[i].Call("Posting.List", result, &result)` that was made:
the shard and the `Query` sent as argument. -/
structure ListCall where
  Shard : Nat
  Args : Query

/-- The loop `for i, _ := range p.clients` of `GetRows`.  `list i q` is the outcome of the call
to shard `i` with argument `q`: `none` when the call never returns, an error, or the value
`result` holds once the reply has been decoded into `&result`.  The second component lists the
calls made, in order. -/
def getRowsLoop (list : Nat → Query → Option (Except GoError Query)) :
    Nat → List (Option RpcClient) → Query →
      Run (Option ListResult × Option GoError) × List ListCall
  | _, [], result => (.returned (some result.Result, none), [])
  | _, none :: _, _ => (.panicked, [])
  | i, some _ :: rest, result =>
    match list i result with
    | none => (.blocked, [⟨i, result⟩])
    | some (.error err) => (.returned (none, some err), [⟨i, result⟩])
    | some (.ok reply) =>
      if (reply.Result.Rows.length : Int) ≥ reply.Limit then
        (.returned (some reply.Result, none), [⟨i, result⟩])
      else
        ((getRowsLoop list (i + 1) rest reply).1,
          ⟨i, result⟩ :: (getRowsLoop list (i + 1) rest reply).2)

/-- The method `GetRows`.  `decoder q values` is the value of `result` after
`decoder.Decode(&result, *values)` (the package variable `decoder` is a value of the external
package gorilla/schema; the error `Decode` returns is dropped by the source). -/
def GetRows (decoder : Query → Values → Query)
    (list : Nat → Query → Option (Except GoError Query))
    (p : Client) (values : Values) : Run (Option ListResult × Option GoError) × List ListCall :=
  getRowsLoop list 0 p.clients
    (decoder { Start := 0, Limit := 100, Result := ⟨false, 0, []⟩ } values)

/-- A parameter name with its ASCII letters in lower case. -/
def foldKey (k : String) : String :=
  String.mk (k.data.map Char.toLower)

/-- A concrete decoder for the evaluations below (the theorems hold for every decoder).  It
follows the key matching of the schema package on the two tagged fields of `Query`: a
parameter name addresses the field whose alias (`start`, `limit`) it equals ignoring letter
case; the last value stored under the name is converted and written, and a value the
converter refuses leaves the field as it is.  Names that address `Result` are skipped. -/
def caseFoldDecoder (convStart : String → Option Nat) (convLimit : String → Option Int)
    (q : Query) : Values → Query
  | [] => q
  | (k, vals) :: rest =>
    if foldKey k = "start" then
      match vals.getLast?.bind convStart with
      | some n => caseFoldDecoder convStart convLimit { q with Start := n } rest
      | none => caseFoldDecoder convStart convLimit q rest
    else if foldKey k = "limit" then
      match vals.getLast?.bind convLimit with
      | some n => caseFoldDecoder convStart convLimit { q with Limit := n } rest
      | none => caseFoldDecoder convStart convLimit q rest
    else caseFoldDecoder convStart convLimit q rest

/-! ## Concrete inputs used by the evaluations below -/

/-- A registry with two posting shards. -/
def sampleRegistry : Registry :=
  ⟨[⟨"10.0.0.1:8090"⟩, ⟨"10.0.0.2:8090"⟩]⟩

/-- Every dial succeeds; the connection made in iteration `i` has handle `i`. -/
def sampleDial : Nat → String → Except GoError RpcClient :=
  fun i _ => .ok ⟨i⟩

/-- The dial of the second config is refused. -/
def refusingDial : Nat → String → Except GoError RpcClient :=
  fun i _ => if i = 1 then .error "connection refused" else .ok ⟨i⟩

/-- Shard 0 answers with one row, shard 1 with two rows; both copy `Start` and `Limit`. -/
def sampleList : Nat → Query → Option (Except GoError Query) :=
  fun i q =>
    if i = 0 then some (.ok { q with Result := ⟨true, 3, [⟨11, 8, []⟩]⟩ })
    else some (.ok { q with Result := ⟨true, 3, [⟨11, 8, []⟩, ⟨12, 4, []⟩]⟩ })

/-- Shard 0 answers with one row, shard 1 fails. -/
def failingList : Nat → Query → Option (Except GoError Query) :=
  fun i q =>
    if i = 0 then some (.ok { q with Result := ⟨true, 3, [⟨11, 8, []⟩]⟩ })
    else some (.error "shard 1 down")

/-- Shard 0 answers with one row, shard 1 never answers. -/
def hangingList : Nat → Query → Option (Except GoError Query) :=
  fun i q =>
    if i = 0 then some (.ok { q with Result := ⟨true, 3, [⟨11, 8, []⟩]⟩ })
    else none

/-- A converter for the `start` parameter that knows one numeral. -/
def sampleConvStart : String → Option Nat :=
  fun s => if s = "5" then some 5 else none

/-- A converter for the `limit` parameter that knows one numeral. -/
def sampleConvLimit : String → Option Int :=
  fun s => if s = "1" then some 1 else none

/-- The decoder used in the evaluations. -/
def sampleDecoder : Query → Values → Query :=
  caseFoldDecoder sampleConvStart sampleConvLimit

/-- Query parameters without any key. -/
def noValues : Values :=
  []

/-- Query parameters `limit=1`. -/
def limitOne : Values :=
  [("limit", ["1"])]

/-- Query parameters `Limit=1`: neither the key `start` nor the key `limit` is in the map. -/
def capitalLimit : Values :=
  [("Limit", ["1"])]

/-- The client `NewClient sampleDial sampleRegistry` returns. -/
def sampleClient : Client :=
  ⟨[some ⟨0⟩, some ⟨1⟩], sampleRegistry⟩

end Posting

/-! ## The queue (package `queue`) -/

namespace Queue

open Posting (GoError)

/-- A byte sequence: a `[]byte`, the content of an `io.Reader`, or the bytes of a Go string. -/
abbrev Bytes := List UInt8

/-- The struct `document.DocumentID`. -/
structure DocumentID where
  Doctype : Nat
  Docid : Nat

/-- Modelled from the spec: the record `QueueItem` of section 3 (the file declaring it is not
among the sources); `Payload` is `none` for a nil byte slice.  The time stamps are left out. -/
structure QueueItem where
  Id : String
  Action : String
  Source : Option DocumentID
  Target : Option DocumentID
  AssociationSource : String
  AssociationTarget : String
  Payload : Option Bytes
  Status : String

/-- Modelled from the spec: `NewQueueItem` of section 4.4 (its source file is missing): it
validates the inputs, then persists the item with status Queued and the payload captured from
the input stream, and returns it.  `valid` is the validation of action, target and ranges,
`id` the identifier generated for the new item, `queue` the stored collection. -/
def NewQueueItem (valid : String → Option DocumentID → Option DocumentID → String → String → Bool)
    (queue : List QueueItem) (id : String) (action : String)
    (source target : Option DocumentID) (associationSource associationTarget : String)
    (payloadStream : Bytes) : Except GoError QueueItem × List QueueItem :=
  if valid action source target associationSource associationTarget then
    let item : QueueItem :=
      { Id := id, Action := action, Source := source, Target := target,
        AssociationSource := associationSource, AssociationTarget := associationTarget,
        Payload := some payloadStream, Status := "Queued" }
    (.ok item, queue ++ [item])
  else (.error "validation error", queue)

/-- Modelled from the spec: the point lookup by id, `C("queue").FindId(id).One(&q)` in the test. -/
def FindId (queue : List QueueItem) (id : String) : Option QueueItem :=
  queue.find? (fun q => q.Id == id)

/-- Modelled from the spec: `getPayload` (its source file is missing): the payload is the raw
bytes of the request body (section 3) and decodes back to the submitted string (section 8).
Returns the pair `(string, error)`; a nil payload is the empty string. -/
def getPayload (q : QueueItem) : Bytes × Option GoError :=
  match q.Payload with
  | some bytes => (bytes, none)
  | none => ([], none)

/-- The bytes of a Go string constant. -/
def bytesOf (s : String) : Bytes :=
  s.toUTF8.data.toList

/-- A validation that accepts every submission, as the payload test of the queue package
relies on for its action name. -/
def acceptAll : String → Option DocumentID → Option DocumentID → String → String → Bool :=
  fun _ _ _ _ _ => true

end Queue

/-! ## The HTTP handler of a queue item (package `api`) -/

namespace Api

open Posting (GoError Values)
open Queue (QueueItem)

/-- What a handler did: it returned an `appError`, or it called `writeJson(rw, req, item, code)`
after setting the listed response headers. -/
inductive Handled where
  | appError (err : GoError) (message : String) (code : Nat)
  | writeJson (header : List (String × String)) (item : QueueItem) (code : Nat)

/-- The function `queueItemHandler`.  `GetQueueItem` is `queue.GetQueueItem(req.Form, r)` and
`Location` is the method `item.Location(r)`, both of the queue package. -/
def queueItemHandler (GetQueueItem : Values → Except GoError QueueItem)
    (Location : QueueItem → String) (form : Values) : Handled :=
  match GetQueueItem form with
  | .error err => .appError err "Queue problem" 500
  | .ok item =>
    if item.Status = "Completed" then
      if Location item ≠ "" then .writeJson [("Location", Location item)] item 201
      else .writeJson [] item 201
    else if item.Status = "Failed" then .writeJson [] item 400
    else .writeJson [] item 202

/-- The value of a response header, if it was set. -/
def Handled.headerValue (h : Handled) (name : String) : Option String :=
  match h with
  | .appError _ _ _ => none
  | .writeJson header _ _ => (header.find? (fun kv => kv.1 == name)).map Prod.snd

/-- The status code passed to `writeJson`, if it was called. -/
def Handled.jsonCode : Handled → Option Nat
  | .appError _ _ _ => none
  | .writeJson _ _ code => some code

/-- A lookup that finds an item whose status is the value of the `status` parameter. -/
def sampleGetQueueItem : Values → Except GoError QueueItem :=
  fun form =>
    match List.lookup "status" form with
    | some [status] =>
      .ok { Id := "50a1b2c3d4e5f60718293a4b", Action := "Add Document", Source := none,
            Target := some ⟨1, 7⟩, AssociationSource := "", AssociationTarget := "",
            Payload := none, Status := status }
    | _ => .error "not found"

/-- The request form `status=Completed`. -/
def completedForm : Values :=
  [("status", ["Completed"])]

/-- The item `sampleGetQueueItem` finds for `completedForm`. -/
def completedItem : QueueItem :=
  { Id := "50a1b2c3d4e5f60718293a4b", Action := "Add Document", Source := none,
    Target := some ⟨1, 7⟩, AssociationSource := "", AssociationTarget := "",
    Payload := none, Status := "Completed" }

/-- The location of the document an item targets; empty without a target. -/
def sampleLocation : QueueItem → String :=
  fun item =>
    match item.Target with
    | some _ => "/document/1/7/"
    | none => ""

end Api

namespace Posting

/-! ## Lemmas on the loops -/

/-- All configs dial successfully: the loop fills one slot per config and dials every address. -/
theorem dialLoop_all_ok (dial : Nat → String → Except GoError RpcClient) :
    ∀ (cfgs : List PostingConfig) (i : Nat) (clients : List (Option RpcClient))
      (dialled : List String),
      (∀ j (h : j < cfgs.length), ∃ c, dial (i + j) (cfgs.get ⟨j, h⟩).Address = .ok c) →
      ∃ cs, dialLoop dial i cfgs clients dialled = (.ok cs, dialled ++ cfgs.map (·.Address)) ∧
        cs.length = clients.length ∧
        (∀ j, j < i → cs.get? j = clients.get? j) ∧
        (∀ j (h : j < cfgs.length), i + j < clients.length →
          ∃ c, dial (i + j) (cfgs.get ⟨j, h⟩).Address = .ok c ∧ cs.get? (i + j) = some (some c)) := by
  intro cfgs
  induction cfgs with
  | nil =>
    intro i clients dialled _
    exact ⟨clients, by simp [dialLoop], rfl, fun _ _ => rfl, fun j h => absurd h (by simp)⟩
  | cons config rest ih =>
    intro i clients dialled hall
    obtain ⟨c, hc⟩ := hall 0 (by simp)
    simp only [List.get_eq_getElem, List.getElem_cons_zero, Nat.add_zero] at hc
    have hrest : ∀ j (h : j < rest.length),
        ∃ c, dial (i + 1 + j) (rest.get ⟨j, h⟩).Address = .ok c := by
      intro j h
      have := hall (j + 1) (by simp; omega)
      simpa [Nat.add_assoc, Nat.add_comm 1 j] using this
    obtain ⟨cs, hcs, hlen, hlow, hhigh⟩ :=
      ih (i + 1) (clients.set i (some c)) (dialled ++ [config.Address]) hrest
    refine ⟨cs, ?_, ?_, ?_, ?_⟩
    · simp [dialLoop, hc, hcs]
    · simpa using hlen
    · intro j hj
      rw [hlow j (by omega)]
      simp only [List.get?_eq_getElem?]
      rw [List.getElem?_set_ne (by omega)]
    · intro j h hj
      cases j with
      | zero =>
        refine ⟨c, by simpa using hc, ?_⟩
        rw [Nat.add_zero, hlow i (by omega)]
        simp only [List.get?_eq_getElem?]
        rw [List.getElem?_set_eq_of_lt]
        simpa using hj
      | succ j =>
        have hj2 : j < rest.length := by simpa using h
        obtain ⟨c2, hd, hg⟩ := hhigh j hj2 (by simp; omega)
        refine ⟨c2, ?_, ?_⟩
        · simpa [Nat.add_assoc, Nat.add_comm 1 j] using hd
        · simpa [Nat.add_assoc, Nat.add_comm 1 j] using hg

/-- The first failing dial ends the loop with its error; later configs are not dialled. -/
theorem dialLoop_first_error (dial : Nat → String → Except GoError RpcClient) :
    ∀ (cfgs : List PostingConfig) (i : Nat) (clients : List (Option RpcClient))
      (dialled : List String) (k : Nat) (hk : k < cfgs.length) (err : GoError),
      dial (i + k) (cfgs.get ⟨k, hk⟩).Address = .error err →
      (∀ j (h : j < cfgs.length), j < k → ∃ c, dial (i + j) (cfgs.get ⟨j, h⟩).Address = .ok c) →
      dialLoop dial i cfgs clients dialled =
        (.error err, dialled ++ (cfgs.take (k + 1)).map (·.Address)) := by
  intro cfgs
  induction cfgs with
  | nil => intro i clients dialled k hk; simp at hk
  | cons config rest ih =>
    intro i clients dialled k hk err herr hbefore
    cases k with
    | zero =>
      simp only [List.get_eq_getElem, List.getElem_cons_zero, Nat.add_zero] at herr
      simp [dialLoop, herr]
    | succ k =>
      obtain ⟨c, hc⟩ := hbefore 0 (by simp) (by omega)
      simp only [List.get_eq_getElem, List.getElem_cons_zero, Nat.add_zero] at hc
      have hk2 : k < rest.length := by simpa using hk
      have h1 : dial (i + 1 + k) (rest.get ⟨k, hk2⟩).Address = .error err := by
        simpa [Nat.add_assoc, Nat.add_comm 1 k] using herr
      have h2 : ∀ j (h : j < rest.length), j < k →
          ∃ c, dial (i + 1 + j) (rest.get ⟨j, h⟩).Address = .ok c := by
        intro j h hjk
        have := hbefore (j + 1) (by simp; omega) (by omega)
        simpa [Nat.add_assoc, Nat.add_comm 1 j] using this
      have := ih (i + 1) (clients.set i (some c)) (dialled ++ [config.Address]) k hk2 err h1 h2
      simp [dialLoop, hc, this]

/-- A dial fails somewhere: there is a first failing config. -/
theorem exists_first_failure (dial : Nat → String → Except GoError RpcClient)
    (cfgs : List PostingConfig)
    (hnot : ¬ ∀ j (h : j < cfgs.length), ∃ c, dial j (cfgs.get ⟨j, h⟩).Address = .ok c) :
    ∃ k, ∃ hk : k < cfgs.length, ∃ err, dial k (cfgs.get ⟨k, hk⟩).Address = .error err ∧
      ∀ j (h : j < cfgs.length), j < k → ∃ c, dial j (cfgs.get ⟨j, h⟩).Address = .ok c := by
  classical
  have hex : ∃ k, ∃ hk : k < cfgs.length, ∃ err,
      dial k (cfgs.get ⟨k, hk⟩).Address = .error err := by
    by_contra hcon
    apply hnot
    intro j h
    cases hd : dial j (cfgs.get ⟨j, h⟩).Address with
    | ok c => exact ⟨c, rfl⟩
    | error err => exact absurd ⟨j, h, err, hd⟩ hcon
  refine ⟨Nat.find hex, (Nat.find_spec hex).1, ?_⟩
  obtain ⟨err, herr⟩ := (Nat.find_spec hex).2
  refine ⟨err, herr, ?_⟩
  intro j h hjk
  cases hd : dial j (cfgs.get ⟨j, h⟩).Address with
  | ok c => exact ⟨c, rfl⟩
  | error e => exact absurd ⟨h, e, hd⟩ (Nat.find_min hex hjk)

/-- A client returned by `NewClient` has one live connection per posting config. -/
theorem NewClient_ok (dial : Nat → String → Except GoError RpcClient) (registry : Registry)
    (p : Client) (hp : (NewClient dial registry).1 = .ok p) :
    p.registry = registry ∧ p.clients.length = registry.PostingConfigs.length ∧
    (NewClient dial registry).2 = registry.PostingConfigs.map (·.Address) ∧
    ∀ i (h : i < registry.PostingConfigs.length),
      ∃ c, dial i (registry.PostingConfigs.get ⟨i, h⟩).Address = .ok c ∧
        p.clients.get? i = some (some c) := by
  by_cases hall : ∀ j (h : j < registry.PostingConfigs.length),
      ∃ c, dial j (registry.PostingConfigs.get ⟨j, h⟩).Address = .ok c
  · obtain ⟨cs, hcs, hlen, _, hhigh⟩ := dialLoop_all_ok dial registry.PostingConfigs 0
      (List.replicate registry.PostingConfigs.length none) [] (by simpa using hall)
    simp only [NewClient, hcs, Except.ok.injEq] at hp ⊢
    subst hp
    refine ⟨rfl, by simpa using hlen, by simp, ?_⟩
    intro i h
    have := hhigh i h (by simpa using h)
    simpa using this
  · obtain ⟨k, hk, err, herr, hbefore⟩ := exists_first_failure dial _ hall
    have := dialLoop_first_error dial registry.PostingConfigs 0
      (List.replicate registry.PostingConfigs.length none) [] k hk err (by simpa using herr)
      (by simpa using hbefore)
    simp [NewClient, this] at hp

/-- No `Go` on a client returned by `NewClient` panics. -/
theorem NewClient_canGo (dial : Nat → String → Except GoError RpcClient) (registry : Registry)
    (p : Client) (hp : (NewClient dial registry).1 = .ok p) :
    (List.range p.clients.length).all (canGo p.clients) = true := by
  obtain ⟨_, hlen, _, hget⟩ := NewClient_ok dial registry p hp
  rw [List.all_eq_true]
  intro i hi
  rw [List.mem_range, hlen] at hi
  obtain ⟨c, _, hc⟩ := hget i hi
  unfold canGo
  rw [hc]

/-- With no failing call among the first `n`, the loop receives all `n` and returns nil. -/
theorem receive_all_ok {R : Type} :
    ∀ (n : Nat) (done : List (Call R)) (k : Nat), n ≤ done.length →
      (∀ c ∈ done.take n, c.Error = none) → receive n done k = .returned (none, k + n) := by
  intro n
  induction n with
  | zero => intro done k _ _; simp [receive]
  | succ n ih =>
    intro done k hlen hok
    cases done with
    | nil => simp at hlen
    | cons c rest =>
      have hc : c.Error = none := hok c (by simp)
      have hrest : ∀ x ∈ rest.take n, x.Error = none := fun x hx => hok x (by simp [hx])
      simp only [receive, hc]
      rw [ih rest (k + 1) (by simpa using hlen) hrest]
      congr 2
      omega

/-- The loop returns at the first failing call, having received exactly the calls up to it. -/
theorem receive_first_error {R : Type} :
    ∀ (pre : List (Call R)) (n : Nat) (c : Call R) (post : List (Call R)) (k : Nat)
      (err : GoError), pre.length < n → (∀ x ∈ pre, x.Error = none) → c.Error = some err →
      receive n (pre ++ c :: post) k = .returned (some err, k + pre.length + 1) := by
  intro pre
  induction pre with
  | nil =>
    intro n c post k err hn _ hc
    cases n with
    | zero => simp at hn
    | succ n => simp [receive, hc]
  | cons x pre ih =>
    intro n c post k err hn hok hc
    cases n with
    | zero => simp at hn
    | succ n =>
      have hx : x.Error = none := hok x (by simp)
      have hih := ih n c post (k + 1) err (by simpa using hn) (fun y hy => hok y (by simp [hy])) hc
      rw [List.cons_append]
      simp only [receive, hx]
      rw [hih]
      congr 2
      simp only [List.length_cons]
      omega

/-- A list of calls is free of errors or splits at its first failing call. -/
theorem split_first_error {R : Type} (done : List (Call R)) :
    (∀ c ∈ done, c.Error = none) ∨
    ∃ pre c post err, done = pre ++ c :: post ∧ (∀ x ∈ pre, x.Error = none) ∧
      c.Error = some err := by
  induction done with
  | nil => left; simp
  | cons c rest ih =>
    cases hc : c.Error with
    | some err => right; exact ⟨[], c, rest, err, rfl, by simp, hc⟩
    | none =>
      rcases ih with hall | ⟨pre, x, post, err, hsplit, hpre, hx⟩
      · left
        intro y hy
        rcases List.mem_cons.mp hy with rfl | hy
        · exact hc
        · exact hall y hy
      · right
        refine ⟨c :: pre, x, post, err, by simp [hsplit], ?_, hx⟩
        intro y hy
        rcases List.mem_cons.mp hy with rfl | hy
        · exact hc
        · exact hpre y hy

theorem receive_not_panicked {R : Type} :
    ∀ (n : Nat) (done : List (Call R)) (k : Nat), receive n done k ≠ .panicked := by
  intro n
  induction n with
  | zero => intro done k; simp [receive]
  | succ n ih =>
    intro done k
    cases done with
    | nil => simp [receive]
    | cons c rest =>
      cases hc : c.Error with
      | some err => simp [receive, hc]
      | none => simpa [receive, hc] using ih rest (k + 1)

/-- On a client returned by `NewClient` the instrumented `Initialise` is its receive loop. -/
theorem InitialiseRun_eq {R : Type} (dial : Nat → String → Except GoError RpcClient)
    (registry : Registry) (p : Client) (hp : (NewClient dial registry).1 = .ok p)
    (done : List (Call R)) :
    InitialiseRun p done = receive p.clients.length done 0 := by
  have hgo := NewClient_canGo dial registry p hp
  obtain ⟨hreg, hlen, _, _⟩ := NewClient_ok dial registry p hp
  unfold InitialiseRun
  rw [hreg, ← hlen, if_pos hgo]

/-- The receive loop reads nothing but the `Error` fields. -/
theorem receive_congr {R R2 : Type} :
    ∀ (n : Nat) (done : List (Call R)) (done2 : List (Call R2)) (k : Nat),
      done2.map (·.Error) = done.map (·.Error) → receive n done2 k = receive n done k := by
  intro n
  induction n with
  | zero => intro done done2 k _; simp [receive]
  | succ n ih =>
    intro done done2 k h
    cases done with
    | nil =>
      cases done2 with
      | nil => rfl
      | cons c2 rest2 => simp at h
    | cons c rest =>
      cases done2 with
      | nil => simp at h
      | cons c2 rest2 =>
        simp only [List.map_cons, List.cons.injEq] at h
        cases hc : c.Error with
        | some err => simp [receive, hc, h.1]
        | none => simpa [receive, hc, h.1] using ih rest rest2 (k + 1) h.2

/-- With one completion per dispatched call, the loop ends with nil exactly when no completion
carries an error. -/
theorem receive_nil_iff {R : Type} (done : List (Call R)) :
    (receive done.length done 0).map Prod.fst = .returned none ↔ ∀ c ∈ done, c.Error = none := by
  constructor
  · intro h
    rcases split_first_error done with hall | ⟨pre, c, post, err, hsplit, hpre, hc⟩
    · exact hall
    · have := receive_first_error pre done.length c post 0 err (by rw [hsplit]; simp) hpre hc
      rw [← hsplit] at this
      rw [this] at h
      simp [Run.map] at h
  · intro hall
    rw [receive_all_ok _ done 0 (le_refl _) (fun c hc => hall c (List.mem_of_mem_take hc))]
    rfl

theorem foldl_writeReply_length {R : Type} :
    ∀ (cs : List (Call R)) (init : SearchGroup R),
      (cs.foldl writeReply init).length = init.length := by
  intro cs
  induction cs with
  | nil => intro init; rfl
  | cons c cs ih =>
    intro init
    rw [List.foldl_cons, ih]
    unfold writeReply
    cases c.Error <;> simp

/-- A slot no completed call points at keeps its value. -/
theorem foldl_writeReply_untouched {R : Type} :
    ∀ (cs : List (Call R)) (init : SearchGroup R) (i : Nat), i ∉ cs.map (·.Shard) →
      (cs.foldl writeReply init).get? i = init.get? i := by
  intro cs
  induction cs with
  | nil => intro init i _; rfl
  | cons c cs ih =>
    intro init i hi
    simp only [List.map_cons, List.mem_cons, not_or] at hi
    rw [List.foldl_cons, ih _ i hi.2]
    unfold writeReply
    cases c.Error with
    | some err => rfl
    | none =>
      simp only [List.get?_eq_getElem?]
      rw [List.getElem?_set_ne (fun h => hi.1 h.symm)]

/-- Each successful call leaves its body in the slot of its shard. -/
theorem foldl_writeReply_get {R : Type} :
    ∀ (cs : List (Call R)) (init : SearchGroup R), (∀ c ∈ cs, c.Error = none) →
      (cs.map (·.Shard)).Nodup → (∀ c ∈ cs, c.Shard < init.length) →
      ∀ c ∈ cs, (cs.foldl writeReply init).get? c.Shard = some c.Body := by
  intro cs
  induction cs with
  | nil => intro init _ _ _ c hc; simp at hc
  | cons x cs ih =>
    intro init hok hnodup hlt c hc
    simp only [List.map_cons, List.nodup_cons] at hnodup
    have hx : x.Error = none := hok x (by simp)
    have hstep : writeReply init x = init.set x.Shard x.Body := by
      unfold writeReply
      rw [hx]
    rw [List.foldl_cons, hstep]
    rcases List.mem_cons.mp hc with rfl | hc
    · rw [foldl_writeReply_untouched cs _ _ hnodup.1]
      simp only [List.get?_eq_getElem?]
      rw [List.getElem?_set_eq_of_lt]
      exact hlt _ (by simp)
    · exact ih _ (fun y hy => hok y (by simp [hy])) hnodup.2
        (fun y hy => by simpa using hlt y (by simp [hy])) c hc

/-- The paging loop on non-nil clients, in terms of the shard behaviour `list`: the calls go
to the shards in order from index `i`, the first with the argument the loop starts from and
each further one with the result left by the reply before it; a call is followed by another
exactly when it was answered without error with fewer than `Limit` rows and a client is left;
the outcome of the loop is that of the last call. -/
theorem getRowsLoop_spec (list : Nat → Query → Option (Except GoError Query)) :
    ∀ (cs : List (Option RpcClient)) (i : Nat) (q : Query), (∀ x ∈ cs, x ≠ none) →
      ((getRowsLoop list i cs q).2.map (·.Shard) =
        List.range' i (getRowsLoop list i cs q).2.length) ∧
      ((getRowsLoop list i cs q).2.length ≤ cs.length) ∧
      (cs ≠ [] → ∃ c tl, (getRowsLoop list i cs q).2 = c :: tl ∧ c.Shard = i ∧ c.Args = q) ∧
      (∀ c ∈ (getRowsLoop list i cs q).2, c.Shard = i → c.Args = q) ∧
      (∀ c ∈ (getRowsLoop list i cs q).2,
        ((∃ c2 ∈ (getRowsLoop list i cs q).2, c2.Shard = c.Shard + 1) ↔
          (c.Shard + 1 < i + cs.length ∧
            ∃ reply, list c.Shard c.Args = some (.ok reply) ∧
              (reply.Result.Rows.length : Int) < reply.Limit))) ∧
      (∀ c ∈ (getRowsLoop list i cs q).2, ∀ c2 ∈ (getRowsLoop list i cs q).2,
        c2.Shard = c.Shard + 1 → list c.Shard c.Args = some (.ok c2.Args)) ∧
      (∀ c ∈ (getRowsLoop list i cs q).2, ∀ err, list c.Shard c.Args = some (.error err) →
        (getRowsLoop list i cs q).1 = .returned (none, some err) ∧
        ∀ c2 ∈ (getRowsLoop list i cs q).2, c2.Shard ≤ c.Shard) ∧
      (∀ c ∈ (getRowsLoop list i cs q).2, list c.Shard c.Args = none →
        (getRowsLoop list i cs q).1 = .blocked ∧
        ∀ c2 ∈ (getRowsLoop list i cs q).2, c2.Shard ≤ c.Shard) ∧
      (∀ c ∈ (getRowsLoop list i cs q).2,
        (∀ c2 ∈ (getRowsLoop list i cs q).2, c2.Shard ≤ c.Shard) →
        ∀ reply, list c.Shard c.Args = some (.ok reply) →
          (getRowsLoop list i cs q).1 = .returned (some reply.Result, none)) ∧
      (cs = [] → (getRowsLoop list i cs q).1 = .returned (some q.Result, none)) := by
  intro cs
  induction cs with
  | nil => intro i q _; simp [getRowsLoop]
  | cons x rest ih =>
    intro i q hsome
    cases x with
    | none => exact absurd rfl (hsome none (by simp))
    | some conn =>
      cases hl : list i q with
      | none =>
        simp [getRowsLoop, hl]
      | some answer =>
        cases answer with
        | error err =>
          simp [getRowsLoop, hl]
        | ok reply =>
          by_cases hlim : (reply.Result.Rows.length : Int) ≥ reply.Limit
          · simp only [getRowsLoop, hl, hlim, if_true]
            simp [hl]
            intro _
            omega
          · obtain ⟨hshards, hlen, hfirst, hargs, hnext, hchain, herr, hblock, hlast, hnil⟩ :=
              ih (i + 1) reply (fun y hy => hsome y (by simp [hy]))
            have hbound : ∀ c ∈ (getRowsLoop list (i + 1) rest reply).2, i + 1 ≤ c.Shard := by
              intro c hc
              have : c.Shard ∈ (getRowsLoop list (i + 1) rest reply).2.map (·.Shard) :=
                List.mem_map_of_mem _ hc
              rw [hshards, List.mem_range'_1] at this
              exact this.1
            have hrw : i + (some conn :: rest).length = i + 1 + rest.length := by
              simp only [List.length_cons]
              omega
            simp only [getRowsLoop, hl, hlim, if_false]
            refine ⟨?_, ?_, ?_, ?_, ?_, ?_, ?_, ?_, ?_, ?_⟩
            · simp [hshards, List.range'_succ]
            · simpa using hlen
            · intro _
              exact ⟨_, _, rfl, rfl, rfl⟩
            · intro c hc hs
              rcases List.mem_cons.mp hc with rfl | hc
              · rfl
              · have := hbound c hc
                omega
            · intro c hc
              rcases List.mem_cons.mp hc with rfl | hc
              · simp only [List.length_cons]
                constructor
                · rintro ⟨c2, hc2, hs⟩
                  rcases List.mem_cons.mp hc2 with rfl | hc2
                  · simp at hs
                  · have : rest ≠ [] := by
                      rintro rfl
                      simp [getRowsLoop] at hc2
                    have := List.length_pos.mpr this
                    exact ⟨by omega, reply, hl, by omega⟩
                · rintro ⟨hlt, _⟩
                  have : rest ≠ [] := by
                    rintro rfl
                    simp at hlt
                  obtain ⟨c2, tl, htr, hs, _⟩ := hfirst this
                  exact ⟨c2, List.mem_cons_of_mem _ (by rw [htr]; simp), hs⟩
              · have hge := hbound c hc
                rw [hrw, ← hnext c hc]
                constructor
                · rintro ⟨c2, hc2, hs⟩
                  rcases List.mem_cons.mp hc2 with rfl | hc2
                  · simp at hs; omega
                  · exact ⟨c2, hc2, hs⟩
                · rintro ⟨c2, hc2, hs⟩
                  exact ⟨c2, List.mem_cons_of_mem _ hc2, hs⟩
            · intro c hc c2 hc2 hs
              rcases List.mem_cons.mp hc with rfl | hc
              · rcases List.mem_cons.mp hc2 with rfl | hc2
                · simp at hs
                · rw [hargs c2 hc2 hs]
                  exact hl
              · rcases List.mem_cons.mp hc2 with rfl | hc2
                · have := hbound c hc
                  simp at hs
                  omega
                · exact hchain c hc c2 hc2 hs
            · intro c hc err hce
              rcases List.mem_cons.mp hc with rfl | hc
              · rw [hl] at hce
                simp at hce
              · obtain ⟨hres, hmax⟩ := herr c hc err hce
                refine ⟨hres, ?_⟩
                intro c2 hc2
                rcases List.mem_cons.mp hc2 with rfl | hc2
                · have := hbound c hc
                  simp only
                  omega
                · exact hmax c2 hc2
            · intro c hc hcn
              rcases List.mem_cons.mp hc with rfl | hc
              · rw [hl] at hcn
                simp at hcn
              · obtain ⟨hres, hmax⟩ := hblock c hc hcn
                refine ⟨hres, ?_⟩
                intro c2 hc2
                rcases List.mem_cons.mp hc2 with rfl | hc2
                · have := hbound c hc
                  simp only
                  omega
                · exact hmax c2 hc2
            · intro c hc hmax r hr
              rcases List.mem_cons.mp hc with rfl | hc
              · have hrest : rest = [] := by
                  by_contra hne
                  obtain ⟨c2, tl, htr, hs, _⟩ := hfirst hne
                  have := hmax c2 (List.mem_cons_of_mem _ (by rw [htr]; simp))
                  simp only at this
                  omega
                rw [hl] at hr
                simp only [Option.some.injEq, Except.ok.injEq] at hr
                rw [← hr]
                exact hnil hrest
              · exact hlast c hc (fun c2 hc2 => hmax c2 (List.mem_cons_of_mem _ hc2)) r hr
            · intro h
              simp at h

/-- No slot of a client returned by `NewClient` is nil. -/
theorem NewClient_nonnil (dial : Nat → String → Except GoError RpcClient) (registry : Registry)
    (p : Client) (hp : (NewClient dial registry).1 = .ok p) : ∀ x ∈ p.clients, x ≠ none := by
  obtain ⟨_, hlen, _, hget⟩ := NewClient_ok dial registry p hp
  intro x hx
  obtain ⟨i, hi, rfl⟩ := List.getElem_of_mem hx
  obtain ⟨c, _, hc⟩ := hget i (by omega)
  rw [List.get?_eq_getElem?, List.getElem?_eq_getElem hi] at hc
  intro hnone
  rw [hnone] at hc
  cases hc

/-! ## The claims -/

/-- C10. `NewClient` returns a client exactly when every posting config dials successfully;
the client then has one slot per config, slot `i` holding the connection dialled for config `i`
(every address was dialled, and `Initialise` never panics on an index or a nil client).  When a
dial fails, `NewClient` returns no client and the error of the first failing config, and the
addresses dialled are those of the configs up to and including that one. -/
theorem NewClient_one_connection_per_shard (dial : Nat → String → Except GoError RpcClient)
    (registry : Registry) :
    ((∃ p, (NewClient dial registry).1 = .ok p) ↔
      ∀ j (h : j < registry.PostingConfigs.length),
        ∃ c, dial j (registry.PostingConfigs.get ⟨j, h⟩).Address = .ok c) ∧
    (∀ p, (NewClient dial registry).1 = .ok p →
      p.clients.length = registry.PostingConfigs.length ∧
      (∀ i (h : i < registry.PostingConfigs.length),
        ∃ c, dial i (registry.PostingConfigs.get ⟨i, h⟩).Address = .ok c ∧
          p.clients.get? i = some (some c)) ∧
      (NewClient dial registry).2 = registry.PostingConfigs.map (·.Address) ∧
      ∀ done : List (Call Unit), Initialise p done ≠ .panicked) ∧
    (∀ k (hk : k < registry.PostingConfigs.length) (err : GoError),
      dial k (registry.PostingConfigs.get ⟨k, hk⟩).Address = .error err →
      (∀ j (h : j < registry.PostingConfigs.length), j < k →
        ∃ c, dial j (registry.PostingConfigs.get ⟨j, h⟩).Address = .ok c) →
      NewClient dial registry =
        (.error err, (registry.PostingConfigs.take (k + 1)).map (·.Address))) := by
  refine ⟨⟨?_, ?_⟩, ?_, ?_⟩
  · rintro ⟨p, hp⟩ j h
    obtain ⟨c, hc, _⟩ := (NewClient_ok dial registry p hp).2.2.2 j h
    exact ⟨c, hc⟩
  · intro hall
    obtain ⟨cs, hcs, _⟩ := dialLoop_all_ok dial registry.PostingConfigs 0
      (List.replicate registry.PostingConfigs.length none) [] (by simpa using hall)
    exact ⟨⟨cs, registry⟩, by simp [NewClient, hcs]⟩
  · intro p hp
    obtain ⟨_, hlen, hdialled, hget⟩ := NewClient_ok dial registry p hp
    refine ⟨hlen, hget, hdialled, ?_⟩
    intro done hpanic
    unfold Initialise at hpanic
    rw [InitialiseRun_eq dial registry p hp] at hpanic
    cases hr : receive p.clients.length done 0 with
    | returned a => simp [hr, Run.map] at hpanic
    | blocked => simp [hr, Run.map] at hpanic
    | panicked => exact receive_not_panicked _ _ _ hr
  · intro k hk err herr hbefore
    have := dialLoop_first_error dial registry.PostingConfigs 0
      (List.replicate registry.PostingConfigs.length none) [] k hk err (by simpa using herr)
      (by simpa using hbefore)
    simp [NewClient, this]

/-- C10, evaluated: two shards dial successfully; with the second dial refused no client is
returned and both addresses up to the refused one were dialled. -/
theorem NewClient_one_connection_per_shard_witness :
    (NewClient sampleDial sampleRegistry).1 = .ok sampleClient ∧
    sampleClient.clients.length = sampleRegistry.PostingConfigs.length ∧
    NewClient refusingDial sampleRegistry =
      (.error "connection refused", ["10.0.0.1:8090", "10.0.0.2:8090"]) :=
  ⟨rfl,
   ((NewClient_one_connection_per_shard sampleDial sampleRegistry).2.1 sampleClient rfl).1,
   (NewClient_one_connection_per_shard refusingDial sampleRegistry).2.2 1 (by decide)
     "connection refused" rfl (fun j _ hj => ⟨⟨j⟩, by
       have : j = 0 := by omega
       subst this
       rfl⟩)⟩

/-- C3. On a client built by `NewClient`, once each of the shard calls has completed,
`Initialise` returns; it returns nil exactly when no completion carries an error, and
otherwise the error of the first failing completion in arrival order, whatever completes
after it. -/
theorem Initialise_first_error {R : Type} (dial : Nat → String → Except GoError RpcClient)
    (registry : Registry) (p : Client) (hp : (NewClient dial registry).1 = .ok p)
    (done : List (Call R)) (hdone : done.length = registry.PostingConfigs.length) :
    (∃ e, Initialise p done = .returned e) ∧
    (Initialise p done = .returned none ↔ ∀ c ∈ done, c.Error = none) ∧
    (∀ pre c post err, done = pre ++ c :: post → (∀ x ∈ pre, x.Error = none) →
      c.Error = some err → Initialise p done = .returned (some err)) := by
  obtain ⟨_, hlen, _, _⟩ := NewClient_ok dial registry p hp
  have hrun := InitialiseRun_eq dial registry p hp done
  have hok : (∀ c ∈ done, c.Error = none) → Initialise p done = .returned none := by
    intro hall
    unfold Initialise
    rw [hrun, receive_all_ok _ done 0 (by omega) (fun c hc => hall c (List.mem_of_mem_take hc))]
    rfl
  have herr : ∀ pre c post err, done = pre ++ c :: post → (∀ x ∈ pre, x.Error = none) →
      c.Error = some err → Initialise p done = .returned (some err) := by
    intro pre c post err hsplit hpre hc
    unfold Initialise
    rw [hrun, hsplit, receive_first_error pre _ c post 0 err
      (by rw [hlen, ← hdone, hsplit]; simp) hpre hc]
    rfl
  refine ⟨?_, ⟨?_, hok⟩, herr⟩
  · rcases split_first_error done with hall | ⟨pre, c, post, err, hsplit, hpre, hc⟩
    · exact ⟨none, hok hall⟩
    · exact ⟨some err, herr pre c post err hsplit hpre hc⟩
  · intro hnil
    rcases split_first_error done with hall | ⟨pre, c, post, err, hsplit, hpre, hc⟩
    · exact hall
    · rw [herr pre c post err hsplit hpre hc] at hnil
      simp at hnil

/-- C3, evaluated: both shards fail; the error of the completion that arrives first is
returned. -/
theorem Initialise_first_error_witness :
    (NewClient sampleDial sampleRegistry).1 = .ok sampleClient ∧
    Initialise sampleClient
      [(⟨1, some "shard 1 down", ()⟩ : Call Unit), ⟨0, some "shard 0 down", ()⟩] =
        .returned (some "shard 1 down") :=
  ⟨rfl, (Initialise_first_error sampleDial sampleRegistry sampleClient rfl
    [⟨1, some "shard 1 down", ()⟩, ⟨0, some "shard 0 down", ()⟩] rfl).2.2
    [] ⟨1, some "shard 1 down", ()⟩ [⟨0, some "shard 0 down", ()⟩] "shard 1 down" rfl
    (by simp) rfl⟩

/-- C4 fails: with two shards, when the completion that arrives first carries an error,
`Initialise` returns after one receive and leaves the second completion in the channel. -/
theorem Initialise_drain_counterexample :
    (NewClient sampleDial sampleRegistry).1 = .ok sampleClient ∧
    InitialiseRun sampleClient [(⟨1, some "shard 1 down", ()⟩ : Call Unit), ⟨0, none, ()⟩] =
      .returned (some "shard 1 down", 1) ∧
    1 ≠ sampleRegistry.PostingConfigs.length :=
  ⟨rfl, rfl, by decide⟩

/-- C4, amended. On a client built by `NewClient`, once each shard call has completed:
when no completion carries an error `Initialise` receives as many completions as there are
shards; otherwise it receives the completions up to and including the first failing one and
returns, without taking the later ones from the channel. -/
theorem Initialise_receives_up_to_first_error {R : Type}
    (dial : Nat → String → Except GoError RpcClient) (registry : Registry) (p : Client)
    (hp : (NewClient dial registry).1 = .ok p) (done : List (Call R))
    (hdone : done.length = registry.PostingConfigs.length) :
    ((∀ c ∈ done, c.Error = none) →
      InitialiseRun p done = .returned (none, registry.PostingConfigs.length)) ∧
    (∀ pre c post err, done = pre ++ c :: post → (∀ x ∈ pre, x.Error = none) →
      c.Error = some err → InitialiseRun p done = .returned (some err, pre.length + 1)) := by
  obtain ⟨_, hlen, _, _⟩ := NewClient_ok dial registry p hp
  have hrun := InitialiseRun_eq dial registry p hp done
  constructor
  · intro hall
    rw [hrun, receive_all_ok _ done 0 (by omega) (fun c hc => hall c (List.mem_of_mem_take hc)),
      hlen, Nat.zero_add]
  · intro pre c post err hsplit hpre hc
    rw [hrun, hsplit, receive_first_error pre _ c post 0 err
      (by rw [hlen, ← hdone, hsplit]; simp) hpre hc, Nat.zero_add]

/-- C4 amended, evaluated: two receives without error, one receive when the first arrival
fails. -/
theorem Initialise_receives_up_to_first_error_witness :
    (NewClient sampleDial sampleRegistry).1 = .ok sampleClient ∧
    InitialiseRun sampleClient [(⟨1, none, ()⟩ : Call Unit), ⟨0, none, ()⟩] =
      .returned (none, 2) ∧
    InitialiseRun sampleClient [(⟨1, some "shard 1 down", ()⟩ : Call Unit), ⟨0, none, ()⟩] =
      .returned (some "shard 1 down", 1) :=
  ⟨rfl,
   (Initialise_receives_up_to_first_error sampleDial sampleRegistry sampleClient rfl
     [⟨1, none, ()⟩, ⟨0, none, ()⟩] rfl).1 (by simp),
   (Initialise_receives_up_to_first_error sampleDial sampleRegistry sampleClient rfl
     [⟨1, some "shard 1 down", ()⟩, ⟨0, none, ()⟩] rfl).2
     [] ⟨1, some "shard 1 down", ()⟩ [⟨0, none, ()⟩] "shard 1 down" rfl (by simp) rfl⟩

/-- C5. On a client built by `NewClient`, for every service name, argument and sequence of
completions, `CallMultiple` ends exactly as `Initialise` does and with the error component of
`Search`; the outcome is the same for any other sequence of completions with the same `Error`
fields (reply bodies and shard order play no part); and once every call has completed it
returns nil exactly when no completion carries an error. -/
theorem CallMultiple_all_or_nothing {R R2 A D : Type} [Inhabited R]
    (dial : Nat → String → Except GoError RpcClient) (registry : Registry) (p : Client)
    (hp : (NewClient dial registry).1 = .ok p) (service : String) (args : A) (d : D)
    (done : List (Call R)) :
    CallMultiple p service args done = Initialise p done ∧
    CallMultiple p service args done = (Search p d done).map Prod.snd ∧
    (∀ done2 : List (Call R2), done2.map (·.Error) = done.map (·.Error) →
      CallMultiple p service args done2 = CallMultiple p service args done) ∧
    (done.length = p.clients.length →
      (CallMultiple p service args done = .returned none ↔ ∀ c ∈ done, c.Error = none)) := by
  have hgo := NewClient_canGo dial registry p hp
  have hcall : ∀ (T : Type) (ds : List (Call T)),
      CallMultiple p service args ds = (receive p.clients.length ds 0).map Prod.fst := by
    intro T ds
    unfold CallMultiple
    rw [if_pos hgo]
  refine ⟨?_, ?_, ?_, ?_⟩
  · rw [hcall R done]
    unfold Initialise
    rw [InitialiseRun_eq dial registry p hp]
  · rw [hcall R done]
    unfold Search
    rw [if_pos hgo]
    cases hr : receive p.clients.length done 0 with
    | returned a =>
      obtain ⟨e, k⟩ := a
      cases e <;> rfl
    | blocked => rfl
    | panicked => rfl
  · intro done2 herr
    rw [hcall R done, hcall R2 done2, receive_congr _ done done2 0 herr]
  · intro hlen
    rw [hcall R done, ← hlen]
    exact receive_nil_iff done

/-- C5, evaluated: a two-shard mutation where the second arrival fails. -/
theorem CallMultiple_all_or_nothing_witness :
    (NewClient sampleDial sampleRegistry).1 = .ok sampleClient ∧
    CallMultiple sampleClient "Posting.Add" (7 : Nat)
      [(⟨1, none, 3⟩ : Call Nat), ⟨0, some "shard 0 down", 4⟩] =
      Initialise sampleClient [(⟨1, none, 3⟩ : Call Nat), ⟨0, some "shard 0 down", 4⟩] ∧
    CallMultiple sampleClient "Posting.Add" (7 : Nat)
      [(⟨1, none, 3⟩ : Call Nat), ⟨0, some "shard 0 down", 4⟩] =
        .returned (some "shard 0 down") :=
  ⟨rfl,
   (@CallMultiple_all_or_nothing Nat Nat Nat Unit _ sampleDial sampleRegistry sampleClient
     rfl "Posting.Add" 7 () [⟨1, none, 3⟩, ⟨0, some "shard 0 down", 4⟩]).1,
   rfl⟩

/-- C1. On a client built by `NewClient`, for every number of shards and every arrival order
of the shard calls (each shard completes once), `Search` returns; it returns an error exactly
when some shard call completed with an error, the group it returns is then nil, and the error
is the error of one of the shard calls. -/
theorem Search_error_iff {R D : Type} [Inhabited R]
    (dial : Nat → String → Except GoError RpcClient) (registry : Registry) (p : Client)
    (hp : (NewClient dial registry).1 = .ok p) (d : D) (done : List (Call R))
    (horder : (done.map (·.Shard)).Perm (List.range p.clients.length)) :
    ∃ g e, Search p d done = .returned (g, e) ∧
      (e ≠ none ↔ ∃ c ∈ done, c.Error ≠ none) ∧
      (e ≠ none → g = none) ∧
      (∀ err, e = some err → ∃ c ∈ done, c.Error = some err) := by
  have hgo := NewClient_canGo dial registry p hp
  have hlen : done.length = p.clients.length := by
    simpa using horder.length_eq
  rcases split_first_error done with hall | ⟨pre, c, post, err, hsplit, hpre, hc⟩
  · have hr := receive_all_ok p.clients.length done 0 (by omega)
      (fun c hc => hall c (List.mem_of_mem_take hc))
    refine ⟨some ((done.take (0 + p.clients.length)).foldl writeReply
      (List.replicate p.clients.length default)), none, ?_, ?_, ?_, ?_⟩
    · unfold Search
      rw [if_pos hgo, hr]
    · constructor
      · intro h; exact absurd rfl h
      · rintro ⟨c, hc, hne⟩; exact absurd (hall c hc) hne
    · intro h; exact absurd rfl h
    · intro err h; cases h
  · have hr := receive_first_error pre p.clients.length c post 0 err
      (by rw [← hlen, hsplit]; simp) hpre hc
    have hmem : c ∈ done := by rw [hsplit]; simp
    refine ⟨none, some err, ?_, ?_, ?_, ?_⟩
    · unfold Search
      rw [if_pos hgo, hsplit, hr]
    · constructor
      · intro _; exact ⟨c, hmem, by rw [hc]; simp⟩
      · intro _; simp
    · intro _; rfl
    · intro e he
      cases he
      exact ⟨c, hmem, hc⟩

/-- C1, evaluated: shard 1 answers first, shard 0 fails; no group is returned. -/
theorem Search_error_iff_witness :
    (NewClient sampleDial sampleRegistry).1 = .ok sampleClient ∧
    ([(⟨1, none, 30⟩ : Call Nat), ⟨0, some "shard 0 down", 0⟩].map (·.Shard)).Perm
      (List.range sampleClient.clients.length) ∧
    Search sampleClient () [(⟨1, none, 30⟩ : Call Nat), ⟨0, some "shard 0 down", 0⟩] =
      .returned (none, some "shard 0 down") ∧
    ∃ g e, Search sampleClient () [(⟨1, none, 30⟩ : Call Nat), ⟨0, some "shard 0 down", 0⟩] =
        .returned (g, e) ∧
      (e ≠ none ↔ ∃ c ∈ [(⟨1, none, 30⟩ : Call Nat), ⟨0, some "shard 0 down", 0⟩],
        c.Error ≠ none) ∧
      (e ≠ none → g = none) ∧
      (∀ err, e = some err → ∃ c ∈ [(⟨1, none, 30⟩ : Call Nat), ⟨0, some "shard 0 down", 0⟩],
        c.Error = some err) :=
  ⟨rfl, by decide, rfl,
   Search_error_iff sampleDial sampleRegistry sampleClient rfl ()
     [⟨1, none, 30⟩, ⟨0, some "shard 0 down", 0⟩] (by decide)⟩

/-- C2. On a client built by `NewClient`, when every shard call completes without error then,
for every arrival order, `Search` returns a group with one element per client in which the
element at the index of each shard is the reply body of that shard's call, and every index
belongs to a shard that replied. -/
theorem Search_index_aligned {R D : Type} [Inhabited R]
    (dial : Nat → String → Except GoError RpcClient) (registry : Registry) (p : Client)
    (hp : (NewClient dial registry).1 = .ok p) (d : D) (done : List (Call R))
    (horder : (done.map (·.Shard)).Perm (List.range p.clients.length))
    (hok : ∀ c ∈ done, c.Error = none) :
    ∃ g, Search p d done = .returned (some g, none) ∧
      g.length = p.clients.length ∧
      (∀ c ∈ done, g.get? c.Shard = some c.Body) ∧
      (∀ i, i < p.clients.length → ∃ c ∈ done, c.Shard = i) := by
  have hgo := NewClient_canGo dial registry p hp
  have hlen : done.length = p.clients.length := by
    simpa using horder.length_eq
  have hr := receive_all_ok p.clients.length done 0 (by omega)
    (fun c hc => hok c (List.mem_of_mem_take hc))
  have hnodup : (done.map (·.Shard)).Nodup := horder.nodup_iff.mpr (List.nodup_range _)
  have hlt : ∀ c ∈ done, c.Shard < (List.replicate p.clients.length (default : R)).length := by
    intro c hc
    have : c.Shard ∈ done.map (·.Shard) := List.mem_map_of_mem _ hc
    simpa using horder.mem_iff.mp this
  refine ⟨done.foldl writeReply (List.replicate p.clients.length default), ?_, ?_, ?_, ?_⟩
  · unfold Search
    rw [if_pos hgo, hr]
    simp only [Nat.zero_add]
    rw [← hlen, List.take_length]
  · rw [foldl_writeReply_length]
    simp
  · exact foldl_writeReply_get done _ hok hnodup hlt
  · intro i hi
    have : i ∈ done.map (·.Shard) := horder.mem_iff.mpr (List.mem_range.mpr hi)
    obtain ⟨c, hc, rfl⟩ := List.mem_map.mp this
    exact ⟨c, hc, rfl⟩

/-- C2, evaluated: shard 1 answers before shard 0; the group is ordered by shard. -/
theorem Search_index_aligned_witness :
    (NewClient sampleDial sampleRegistry).1 = .ok sampleClient ∧
    ([(⟨1, none, 30⟩ : Call Nat), ⟨0, none, 20⟩].map (·.Shard)).Perm
      (List.range sampleClient.clients.length) ∧
    Search sampleClient () [(⟨1, none, 30⟩ : Call Nat), ⟨0, none, 20⟩] =
      .returned (some [20, 30], none) ∧
    ∃ g, Search sampleClient () [(⟨1, none, 30⟩ : Call Nat), ⟨0, none, 20⟩] =
        .returned (some g, none) ∧
      g.length = sampleClient.clients.length ∧
      (∀ c ∈ [(⟨1, none, 30⟩ : Call Nat), ⟨0, none, 20⟩], g.get? c.Shard = some c.Body) ∧
      (∀ i, i < sampleClient.clients.length →
        ∃ c ∈ [(⟨1, none, 30⟩ : Call Nat), ⟨0, none, 20⟩], c.Shard = i) :=
  ⟨rfl, by decide, rfl,
   Search_index_aligned sampleDial sampleRegistry sampleClient rfl ()
     [⟨1, none, 30⟩, ⟨0, none, 20⟩] (by decide) (by simp)⟩

/-- C6. On a client built by `NewClient`, `GetRows` calls the shards one after the other in
shard-list order: the calls made are to shards `0, 1, ..` without gap or repeat; with at least
one shard the first call goes to shard 0 with the decoded query, and each further call carries
the result left by the reply before it.  Shard `i + 1` is called exactly when it exists,
shards `0..i` were all called and answered without error, and after the reply of shard `i`
the result held fewer than `Limit` rows.  A shard error ends the loop: `GetRows` returns that
error with a nil `ListResult` and no later shard is called.  A call that never returns blocks
`GetRows`; otherwise it returns the `Result` left by the last reply (of the decoded query when
there is no shard). -/
theorem GetRows_sequential (decoder : Query → Values → Query)
    (list : Nat → Query → Option (Except GoError Query))
    (dial : Nat → String → Except GoError RpcClient) (registry : Registry) (p : Client)
    (hp : (NewClient dial registry).1 = .ok p) (values : Values) :
    ((GetRows decoder list p values).2.map (·.Shard) =
      List.range (GetRows decoder list p values).2.length) ∧
    ((GetRows decoder list p values).2.length ≤ p.clients.length) ∧
    (0 < p.clients.length → ∃ c tl, (GetRows decoder list p values).2 = c :: tl ∧ c.Shard = 0 ∧
      c.Args = decoder { Start := 0, Limit := 100, Result := ⟨false, 0, []⟩ } values) ∧
    (∀ c ∈ (GetRows decoder list p values).2, ∀ c2 ∈ (GetRows decoder list p values).2,
      c2.Shard = c.Shard + 1 → list c.Shard c.Args = some (.ok c2.Args)) ∧
    (∀ i, (∃ c ∈ (GetRows decoder list p values).2, c.Shard = i + 1) ↔
      (i + 1 < p.clients.length ∧
        (∀ j, j ≤ i → ∃ c ∈ (GetRows decoder list p values).2,
          c.Shard = j ∧ ∃ reply, list j c.Args = some (.ok reply)) ∧
        ∃ c ∈ (GetRows decoder list p values).2, c.Shard = i ∧
          ∃ reply, list i c.Args = some (.ok reply) ∧
            (reply.Result.Rows.length : Int) < reply.Limit)) ∧
    (∀ c ∈ (GetRows decoder list p values).2, ∀ err,
      list c.Shard c.Args = some (.error err) →
      (GetRows decoder list p values).1 = .returned (none, some err) ∧
      ∀ c2 ∈ (GetRows decoder list p values).2, c2.Shard ≤ c.Shard) ∧
    (∀ c ∈ (GetRows decoder list p values).2, list c.Shard c.Args = none →
      (GetRows decoder list p values).1 = .blocked ∧
      ∀ c2 ∈ (GetRows decoder list p values).2, c2.Shard ≤ c.Shard) ∧
    (∀ c ∈ (GetRows decoder list p values).2,
      (∀ c2 ∈ (GetRows decoder list p values).2, c2.Shard ≤ c.Shard) →
      ∀ reply, list c.Shard c.Args = some (.ok reply) →
        (GetRows decoder list p values).1 = .returned (some reply.Result, none)) ∧
    (p.clients = [] → (GetRows decoder list p values).1 = .returned
      (some (decoder { Start := 0, Limit := 100, Result := ⟨false, 0, []⟩ } values).Result,
        none)) := by
  obtain ⟨hshards, hlen, hfirst, _, hnext, hchain, herr, hblock, hlast, hnil⟩ :=
    getRowsLoop_spec list p.clients 0
      (decoder { Start := 0, Limit := 100, Result := ⟨false, 0, []⟩ } values)
      (NewClient_nonnil dial registry p hp)
  rw [List.range_eq_range']
  refine ⟨hshards, hlen, fun h => hfirst (List.length_pos.mp h), hchain, ?_, herr, hblock,
    hlast, hnil⟩
  have hcalled : ∀ j, j < (GetRows decoder list p values).2.length →
      ∃ c ∈ (GetRows decoder list p values).2, c.Shard = j := by
    intro j hj
    have : j ∈ (GetRows decoder list p values).2.map (·.Shard) := by
      erw [hshards, List.mem_range'_1]
      exact ⟨Nat.zero_le _, by simpa using hj⟩
    obtain ⟨c, hc, hs⟩ := List.mem_map.mp this
    exact ⟨c, hc, hs⟩
  have hidx : ∀ c ∈ (GetRows decoder list p values).2,
      c.Shard < (GetRows decoder list p values).2.length := by
    intro c hc
    have : c.Shard ∈ (GetRows decoder list p values).2.map (·.Shard) :=
      List.mem_map_of_mem _ hc
    erw [hshards, List.mem_range'_1] at this
    simpa using this.2
  intro i
  constructor
  · rintro ⟨c1, hc1, hs1⟩
    have hi := hidx c1 hc1
    have hlen2 : (GetRows decoder list p values).2.length ≤ p.clients.length := hlen
    have hstep : ∀ j, j ≤ i → ∃ c ∈ (GetRows decoder list p values).2, c.Shard = j ∧
        ∃ reply, list j c.Args = some (.ok reply) ∧
          (reply.Result.Rows.length : Int) < reply.Limit := by
      intro j hj
      obtain ⟨c, hc, hs⟩ := hcalled j (by omega)
      obtain ⟨c2, hc2, hs2⟩ := hcalled (j + 1) (by omega)
      obtain ⟨_, reply, hreply⟩ := ((hnext c hc).mp ⟨c2, hc2, by rw [hs2, hs]⟩)
      rw [hs] at hreply
      exact ⟨c, hc, hs, reply, hreply⟩
    refine ⟨by omega, ?_, ?_⟩
    · intro j hj
      obtain ⟨c, hc, hs, reply, hreply, _⟩ := hstep j hj
      exact ⟨c, hc, hs, reply, hreply⟩
    · obtain ⟨c, hc, hs, reply, hreply⟩ := hstep i (le_refl _)
      exact ⟨c, hc, hs, reply, hreply⟩
  · rintro ⟨hlt, _, c, hc, hs, reply, hreply⟩
    rw [← hs] at hreply
    obtain ⟨c2, hc2, hs2⟩ := (hnext c hc).mpr ⟨by omega, reply, hreply⟩
    exact ⟨c2, hc2, by rw [hs2, hs]⟩

/-- C6, evaluated on two shards: with the default limit both shards are called in order and
the rows of the last reply are returned; with `limit=1` the row of shard 0 reaches the limit
and shard 1 is not called; a failing shard 1 gives its error and no `ListResult`; a shard 1
that never answers blocks the call. -/
theorem GetRows_sequential_witness :
    (NewClient sampleDial sampleRegistry).1 = .ok sampleClient ∧
    (GetRows sampleDecoder sampleList sampleClient noValues).2.map (·.Shard) = [0, 1] ∧
    (GetRows sampleDecoder sampleList sampleClient noValues).1 =
      .returned (some ⟨true, 3, [⟨11, 8, []⟩, ⟨12, 4, []⟩]⟩, none) ∧
    (GetRows sampleDecoder sampleList sampleClient limitOne).2.map (·.Shard) = [0] ∧
    (GetRows sampleDecoder sampleList sampleClient limitOne).1 =
      .returned (some ⟨true, 3, [⟨11, 8, []⟩]⟩, none) ∧
    (GetRows sampleDecoder failingList sampleClient noValues).1 =
      .returned (none, some "shard 1 down") ∧
    (GetRows sampleDecoder hangingList sampleClient noValues).1 = .blocked ∧
    ((∃ c ∈ (GetRows sampleDecoder sampleList sampleClient limitOne).2, c.Shard = 0 + 1) ↔
      (0 + 1 < sampleClient.clients.length ∧
        (∀ j, j ≤ 0 → ∃ c ∈ (GetRows sampleDecoder sampleList sampleClient limitOne).2,
          c.Shard = j ∧ ∃ reply, sampleList j c.Args = some (.ok reply)) ∧
        ∃ c ∈ (GetRows sampleDecoder sampleList sampleClient limitOne).2, c.Shard = 0 ∧
          ∃ reply, sampleList 0 c.Args = some (.ok reply) ∧
            (reply.Result.Rows.length : Int) < reply.Limit)) :=
  ⟨rfl, by decide, rfl, by decide, rfl, rfl, rfl,
   (GetRows_sequential sampleDecoder sampleList sampleDial sampleRegistry sampleClient rfl
     limitOne).2.2.2.2.1 0⟩

/-- The sample decoder leaves `Start` alone when no parameter name folds to `start`. -/
theorem caseFoldDecoder_keeps_start (convStart : String → Option Nat)
    (convLimit : String → Option Int) :
    ∀ (values : Values) (q : Query), (∀ kv ∈ values, foldKey kv.1 ≠ "start") →
      (caseFoldDecoder convStart convLimit q values).Start = q.Start := by
  intro values
  induction values with
  | nil => intro q _; rfl
  | cons kv rest ih =>
    intro q hkeys
    obtain ⟨k, vals⟩ := kv
    have hk : foldKey k ≠ "start" := hkeys (k, vals) (by simp)
    have hrest : ∀ kv ∈ rest, foldKey kv.1 ≠ "start" := fun kv h => hkeys kv (by simp [h])
    unfold caseFoldDecoder
    rw [if_neg hk]
    split
    · split
      · rw [ih _ hrest]
      · exact ih _ hrest
    · exact ih _ hrest

/-- The sample decoder leaves `Limit` alone when no parameter name folds to `limit`. -/
theorem caseFoldDecoder_keeps_limit (convStart : String → Option Nat)
    (convLimit : String → Option Int) :
    ∀ (values : Values) (q : Query), (∀ kv ∈ values, foldKey kv.1 ≠ "limit") →
      (caseFoldDecoder convStart convLimit q values).Limit = q.Limit := by
  intro values
  induction values with
  | nil => intro q _; rfl
  | cons kv rest ih =>
    intro q hkeys
    obtain ⟨k, vals⟩ := kv
    have hk : foldKey k ≠ "limit" := hkeys (k, vals) (by simp)
    have hrest : ∀ kv ∈ rest, foldKey kv.1 ≠ "limit" := fun kv h => hkeys kv (by simp [h])
    unfold caseFoldDecoder
    rw [if_neg hk]
    split
    · split
      · rw [ih _ hrest]
      · exact ih _ hrest
    · exact ih _ hrest

/-- C7 fails as stated: the parameters `Limit=1` hold neither the key `start` nor the key
`limit`, yet under a decoder that matches names ignoring letter case the first shard is sent
`Limit` 1, not the default 100. -/
theorem GetRows_defaults_counterexample :
    List.lookup "start" capitalLimit = none ∧ List.lookup "limit" capitalLimit = none ∧
    (GetRows sampleDecoder sampleList sampleClient capitalLimit).2.head?.map
      (fun c => (c.Shard, c.Args.Start, c.Args.Limit)) = some (0, 0, 1) ∧
    (1 : Int) ≠ 100 :=
  ⟨by decide, by decide, by decide, by decide⟩

/-- C7, amended. On a client built by `NewClient` with at least one shard, for every decoder:
the first call goes to shard 0 and carries what the decoder makes of `Query` with `Start` 0
and `Limit` 100 and the query parameters.  So for parameters for which the decoder does not
write `Start` the first shard is sent `Start` 0, and for parameters for which it does not
write `Limit` the first shard is sent `Limit` 100, each whatever happens to the other
field. -/
theorem GetRows_decoded_defaults (decoder : Query → Values → Query)
    (list : Nat → Query → Option (Except GoError Query))
    (dial : Nat → String → Except GoError RpcClient) (registry : Registry) (p : Client)
    (hp : (NewClient dial registry).1 = .ok p) (hshard : 0 < p.clients.length)
    (values : Values) :
    ∃ c, (GetRows decoder list p values).2.head? = some c ∧ c.Shard = 0 ∧
      c.Args = decoder { Start := 0, Limit := 100, Result := ⟨false, 0, []⟩ } values ∧
      ((∀ q, (decoder q values).Start = q.Start) → c.Args.Start = 0) ∧
      ((∀ q, (decoder q values).Limit = q.Limit) → c.Args.Limit = 100) := by
  obtain ⟨_, _, hfirst, _⟩ := getRowsLoop_spec list p.clients 0
    (decoder { Start := 0, Limit := 100, Result := ⟨false, 0, []⟩ } values)
    (NewClient_nonnil dial registry p hp)
  obtain ⟨c, tl, htr, hs, hargs⟩ := hfirst (List.length_pos.mp hshard)
  refine ⟨c, ?_, hs, hargs, ?_, ?_⟩
  · unfold GetRows
    rw [htr]
    rfl
  · intro h
    rw [hargs, h]
  · intro h
    rw [hargs, h]

/-- C7 amended, evaluated: without parameters the first shard is sent `Start` 0 and `Limit`
100; with `Limit=1` the decoder leaves `Start`, so the first shard is sent `Start` 0, and it
is sent `Limit` 1. -/
theorem GetRows_decoded_defaults_witness :
    (NewClient sampleDial sampleRegistry).1 = .ok sampleClient ∧
    0 < sampleClient.clients.length ∧
    (∃ c, (GetRows sampleDecoder sampleList sampleClient noValues).2.head? = some c ∧
      c.Shard = 0 ∧ c.Args.Start = 0 ∧ c.Args.Limit = 100) ∧
    (∃ c, (GetRows sampleDecoder sampleList sampleClient capitalLimit).2.head? = some c ∧
      c.Shard = 0 ∧ c.Args = sampleDecoder ⟨0, 100, ⟨false, 0, []⟩⟩ capitalLimit ∧
      c.Args.Start = 0) ∧
    (sampleDecoder ⟨0, 100, ⟨false, 0, []⟩⟩ capitalLimit).Limit = 1 :=
  ⟨rfl, by decide,
   (GetRows_decoded_defaults sampleDecoder sampleList sampleDial sampleRegistry sampleClient
     rfl (by decide) noValues).imp
     (fun c h => ⟨h.1, h.2.1, h.2.2.2.1 (fun q => rfl), h.2.2.2.2 (fun q => rfl)⟩),
   (GetRows_decoded_defaults sampleDecoder sampleList sampleDial sampleRegistry sampleClient
     rfl (by decide) capitalLimit).imp
     (fun c h => ⟨h.1, h.2.1, h.2.2.1,
       h.2.2.2.1 (fun q => caseFoldDecoder_keeps_start sampleConvStart sampleConvLimit
         capitalLimit q (by decide))⟩),
   by decide⟩

end Posting

namespace Api

open Posting (GoError Values)
open Queue (QueueItem)

/-- C8. For an item found by `queueItemHandler` the response depends on the status only:
Completed gives code 201 and, when the item has a non-empty location, the header `Location`
with that location; Failed gives 400; any other status gives 202; two found items of equal
status get the same code; and no `Location` header is set for an item that is not
Completed. -/
theorem queueItemHandler_by_status (GetQueueItem : Values → Except GoError QueueItem)
    (Location : QueueItem → String) (form : Values) (item : QueueItem)
    (hfound : GetQueueItem form = .ok item) :
    (item.Status = "Completed" →
      (queueItemHandler GetQueueItem Location form).jsonCode = some 201 ∧
      (Location item ≠ "" →
        (queueItemHandler GetQueueItem Location form).headerValue "Location" =
          some (Location item))) ∧
    (item.Status = "Failed" →
      (queueItemHandler GetQueueItem Location form).jsonCode = some 400) ∧
    (item.Status ≠ "Completed" → item.Status ≠ "Failed" →
      (queueItemHandler GetQueueItem Location form).jsonCode = some 202) ∧
    (∀ form2 item2, GetQueueItem form2 = .ok item2 → item2.Status = item.Status →
      (queueItemHandler GetQueueItem Location form2).jsonCode =
        (queueItemHandler GetQueueItem Location form).jsonCode) ∧
    (item.Status ≠ "Completed" →
      (queueItemHandler GetQueueItem Location form).headerValue "Location" = none) := by
  have hcode : ∀ f it, GetQueueItem f = .ok it →
      (queueItemHandler GetQueueItem Location f).jsonCode =
        some (if it.Status = "Completed" then 201 else if it.Status = "Failed" then 400
          else 202) := by
    intro f it hf
    unfold queueItemHandler
    rw [hf]
    by_cases h1 : it.Status = "Completed"
    · by_cases h2 : Location it ≠ "" <;> simp [h1, h2, Handled.jsonCode]
    · by_cases h3 : it.Status = "Failed" <;> simp [h1, h3, Handled.jsonCode]
  refine ⟨?_, ?_, ?_, ?_, ?_⟩
  · intro hs
    refine ⟨by rw [hcode form item hfound, if_pos hs], ?_⟩
    intro hloc
    unfold queueItemHandler
    rw [hfound]
    simp [hs, hloc, Handled.headerValue]
  · intro hs
    have hne : item.Status ≠ "Completed" := by rw [hs]; decide
    rw [hcode form item hfound, if_neg hne, if_pos hs]
  · intro h1 h2
    rw [hcode form item hfound, if_neg h1, if_neg h2]
  · intro form2 item2 hfound2 hs
    rw [hcode form item hfound, hcode form2 item2 hfound2, hs]
  · intro hs
    unfold queueItemHandler
    rw [hfound]
    by_cases h3 : item.Status = "Failed" <;> simp [hs, h3, Handled.headerValue]

/-- C8, evaluated: a Completed item that targets document 1/7 is answered with 201 and the
header `Location: /document/1/7/`. -/
theorem queueItemHandler_by_status_witness :
    sampleGetQueueItem completedForm = .ok completedItem ∧
    (queueItemHandler sampleGetQueueItem sampleLocation completedForm).jsonCode = some 201 ∧
    (queueItemHandler sampleGetQueueItem sampleLocation completedForm).headerValue "Location" =
      some "/document/1/7/" :=
  ⟨rfl,
   ((queueItemHandler_by_status sampleGetQueueItem sampleLocation completedForm completedItem
     rfl).1 rfl).1,
   ((queueItemHandler_by_status sampleGetQueueItem sampleLocation completedForm completedItem
     rfl).1 rfl).2 (by decide)⟩

end Api

namespace Queue

open Posting (GoError)

/-- C9. Whenever `NewQueueItem` stores an item under an identifier no stored item has, the
item found under that identifier has a non-nil payload and `getPayload` returns exactly the
bytes read from the input stream, with no error. -/
theorem payload_round_trip
    (valid : String → Option DocumentID → Option DocumentID → String → String → Bool)
    (queue : List QueueItem) (id action : String) (source target : Option DocumentID)
    (associationSource associationTarget : String) (payloadStream : Bytes)
    (item : QueueItem) (stored : List QueueItem)
    (hfresh : ∀ q ∈ queue, q.Id ≠ id)
    (hnew : NewQueueItem valid queue id action source target associationSource
      associationTarget payloadStream = (.ok item, stored)) :
    ∃ q, FindId stored item.Id = some q ∧ q.Payload ≠ none ∧
      getPayload q = (payloadStream, none) := by
  unfold NewQueueItem at hnew
  split at hnew
  · simp only [Prod.mk.injEq, Except.ok.injEq] at hnew
    obtain ⟨hitem, hstored⟩ := hnew
    subst hitem
    subst hstored
    refine ⟨{ Id := id, Action := action, Source := source, Target := target,
              AssociationSource := associationSource, AssociationTarget := associationTarget,
              Payload := some payloadStream, Status := "Queued" }, ?_, ?_, rfl⟩
    · unfold FindId
      rw [List.find?_append]
      have hnone : List.find? (fun q => q.Id == id) queue = none := by
        rw [List.find?_eq_none]
        intro q hq
        simpa using hfresh q hq
      rw [hnone]
      simp
    · simp
  · simp at hnew

/-- C9, evaluated on the payload of the test: the stored item decodes back to the bytes of
"I am the payload". -/
theorem payload_round_trip_witness :
    (∀ q ∈ ([] : List QueueItem), q.Id ≠ "50a1b2c3d4e5f60718293a4b") ∧
    ∃ q, FindId (NewQueueItem acceptAll [] "50a1b2c3d4e5f60718293a4b" "test" none none "" ""
        (bytesOf "I am the payload")).2 "50a1b2c3d4e5f60718293a4b" = some q ∧
      q.Payload ≠ none ∧ getPayload q = (bytesOf "I am the payload", none) :=
  ⟨by simp,
   payload_round_trip acceptAll [] "50a1b2c3d4e5f60718293a4b" "test" none none "" ""
     (bytesOf "I am the payload") _ _ (by simp) rfl⟩

end Queue
